import Mathlib

/-!
Verification of the repository's artifact-reconciliation core against its
specification.

Two source modules are embedded:

* `modules/manager/npm/npmrc.ts` (registry config resolver):
  `resolveNpmrc`, `getRegistryNpmrcLines`, `getRegistryYarnrcScopes`.
  JavaScript strings are embedded as `List Char` (`Str`), so that the
  line-splitting, filtering and joining done by the source is modelled
  byte-for-byte.

* `modules/manager/nuget/artifacts.ts` (artifact update engine):
  `updateArtifacts` and its helpers.  The effectful collaborators
  (file search, file read, git snapshot, process execution) are modelled
  as an explicit environment value: the functions below are the pure
  state-transformers the source code denotes once each collaborator's
  answer is fixed.
-/

namespace Npmrc

/-- JavaScript strings, embedded as lists of characters. -/
abbrev Str := List Char

/-- Conversion from Lean string literals to the embedded string type. -/
def str (s : String) : Str := s.data

/-- `needle.isPrefixOf hay` in Bool form, JS `String.prototype.startsWith`. -/
def startsWithStr (hay needle : Str) : Bool := needle.isPrefixOf hay

/-- JS `String.prototype.includes`: `sub` occurs contiguously in `hay`. -/
def hasSub (hay sub : Str) : Bool :=
  match hay with
  | [] => sub.isEmpty
  | _ :: rest => sub.isPrefixOf hay || hasSub rest sub

/-- JS `string.endsWith('\n')`: the last character is a newline. -/
def endsWithNL (s : Str) : Bool :=
  match s.getLast? with
  | some c => c = '\n'
  | none => false

/-- `isNonEmptyString` from the `@sindresorhus/is` library: the value is a
string and it is non-empty. -/
def isNonEmptyStrOpt (s : Option Str) : Bool :=
  match s with
  | some l => !l.isEmpty
  | none => false

/-- JS `s.split(newlineRegex)` where `newlineRegex = /\r?\n/`: split on
`\r\n` or `\n`; a lone `\r` does not split. -/
def splitNewline : Str → List Str
  | [] => [[]]
  | '\r' :: '\n' :: rest => [] :: splitNewline rest
  | '\n' :: rest => [] :: splitNewline rest
  | c :: rest =>
    match splitNewline rest with
    | [] => [[c]]
    | l :: ls => (c :: l) :: ls

/-- JS `lines.join('\n')`. -/
def joinNL : List Str → Str
  | [] => []
  | [l] => l
  | l :: ls => l ++ '\n' :: joinNL ls

/-- The unresolved-interpolation marker `=${` searched for by `resolveNpmrc`. -/
def varMarker : Str := str "=$\x7b"

/-- The lockfile-behavior directive name `package-lock`. -/
def pkgLockStr : Str := str "package-lock"

/-- The scanning phase of JS
`repoNpmrc.replace(/(^|\n)package-lock.*?(\n|$)/g, '\n')` at positions past
the start of the string.  A match needs a literal `'\n'`, then the literal
`package-lock`, then the rest of that line including its terminating newline
(or the end of the string); each match is replaced by a single `'\n'` and
scanning resumes after the consumed text, exactly as the JS global replace
does (so a `'\n'` consumed by one match cannot lead the next).  The first
argument is the mode: `true` while consuming the `.*?(\n|$)` tail of a
match (everything up to and including the next newline); since
`package-lock` contains no newline, entering this mode right at the match's
`package-lock` literal consumes exactly the span the regex consumes. -/
def pkgLockScan : Bool → Str → Str
  | _, [] => []
  | true, c :: rest =>
    if c = '\n' then pkgLockScan false rest else pkgLockScan true rest
  | false, c :: rest =>
    if c = '\n' && pkgLockStr.isPrefixOf rest then
      '\n' :: pkgLockScan true rest
    else
      c :: pkgLockScan false rest

/-- JS `repoNpmrc.replace(/(^|\n)package-lock.*?(\n|$)/g, '\n')`: the `^`
alternative (no `m` flag, so `^` is only the start of the string) is checked
once up front, then `pkgLockScan` handles the `\n` alternative. -/
def pkgLockReplace (s : Str) : Str :=
  if pkgLockStr.isPrefixOf s then '\n' :: pkgLockScan true s
  else pkgLockScan false s

/-- The filtering `resolveNpmrc` applies to the text of a found repository
`.npmrc` file before appending it (source lines 38-54): strip
`package-lock` lines whenever the text mentions `package-lock`, then, unless
the global `exposeAllEnv` flag is set, drop every line containing `=${`. -/
def filterRepoNpmrc (exposeAllEnv : Bool) (repoNpmrc : Str) : Str :=
  let repo1 := if hasSub repoNpmrc pkgLockStr then pkgLockReplace repoNpmrc else repoNpmrc
  if hasSub repo1 varMarker && !exposeAllEnv then
    joinNL ((splitNewline repo1).filter (fun line => !(hasSub line varMarker)))
  else repo1

/-- The caller-supplied configuration consumed by `resolveNpmrc`:
`{ npmrc?: string; npmrcMerge?: boolean }` (an absent `npmrcMerge` behaves
as `false` under the source's `!config.npmrcMerge`). -/
structure NpmrcConfig where
  npmrc : Option Str
  npmrcMerge : Bool
deriving Repr, DecidableEq

/-- The answers of `resolveNpmrc`'s effectful collaborators, fixed per call:
the result of `findLocalSiblingOrParent(packageFile, '.npmrc')`, the result
of `readLocalFile(npmrcFileName, 'utf8')` (`none` models a non-string
result), and `GlobalConfig.get('exposeAllEnv')`. -/
structure NpmrcEnv where
  foundNpmrcFile : Option Str
  repoFileContent : Option Str
  exposeAllEnv : Bool
deriving Repr, DecidableEq

/-- The `NpmrcResult` interface of the source. -/
structure NpmrcResult where
  npmrc : Option Str
  npmrcFileName : Option Str
deriving Repr, DecidableEq

/-- `resolveNpmrc` from `npmrc.ts` (lines 16-62), with the collaborators'
answers passed in as `env`. -/
def resolveNpmrc (env : NpmrcEnv) (_packageFile : Str) (config : NpmrcConfig) :
    NpmrcResult :=
  match env.foundNpmrcFile with
  | some npmrcFileName =>
    match env.repoFileContent with
    | some repoNpmrc =>
      if config.npmrc.isSome && !config.npmrcMerge then
        { npmrc := config.npmrc, npmrcFileName := some npmrcFileName }
      else
        let npmrc0 := config.npmrc.getD []
        let npmrc1 :=
          if npmrc0.length ≠ 0 && !endsWithNL npmrc0 then npmrc0 ++ ['\n'] else npmrc0
        { npmrc := some (npmrc1 ++ filterRepoNpmrc env.exposeAllEnv repoNpmrc),
          npmrcFileName := some npmrcFileName }
    | none => { npmrc := none, npmrcFileName := some npmrcFileName }
  | none =>
    match config.npmrc with
    | some t => { npmrc := some t, npmrcFileName := none }
    | none => { npmrc := none, npmrcFileName := none }

/-- The `Upgrade` fields consumed by the scope-extraction functions:
`depName?: string` and `registryUrls?: string[] | null`. -/
structure Upgrade where
  depName : Option Str
  registryUrls : Option (List Str)
deriving Repr, DecidableEq

/-- JS `upgrade.registryUrls?.[0]`. -/
def firstRegistryUrl (u : Upgrade) : Option Str :=
  match u.registryUrls with
  | some (r :: _) => some r
  | _ => none

/-- JS `depName.split('/')[0]`: the segment before the first `'/'`. -/
def takeToSlash (d : Str) : Str := d.takeWhile (fun c => c != '/')

/-- JS `depName.startsWith('@')`. -/
def headIsAt (d : Str) : Bool :=
  match d with
  | c :: _ => c == '@'
  | [] => false

/-- The loop of `getRegistryNpmrcLines` (lines 73-89), carrying the
`seenScopes` set. -/
def getRegistryNpmrcLinesGo (seenScopes : List Str) :
    List Upgrade → List Str
  | [] => []
  | upgrade :: rest =>
    if !(isNonEmptyStrOpt (firstRegistryUrl upgrade))
        || !(isNonEmptyStrOpt upgrade.depName) then
      getRegistryNpmrcLinesGo seenScopes rest
    else if !(headIsAt (upgrade.depName.getD [])) then
      getRegistryNpmrcLinesGo seenScopes rest
    else
      let scope := takeToSlash (upgrade.depName.getD [])
      if scope ∈ seenScopes then
        getRegistryNpmrcLinesGo seenScopes rest
      else
        (scope ++ str ":registry=" ++ (firstRegistryUrl upgrade).getD [])
          :: getRegistryNpmrcLinesGo (scope :: seenScopes) rest

/-- `getRegistryNpmrcLines` from `npmrc.ts` (lines 69-92). -/
def getRegistryNpmrcLines (upgrades : List Upgrade) : List Str :=
  getRegistryNpmrcLinesGo [] upgrades

/-- The loop of `getRegistryYarnrcScopes` (lines 108-124): the `scopes`
object is modelled as an association list in insertion order (JS objects
with non-numeric string keys preserve insertion order). -/
def getRegistryYarnrcScopesGo (scopes : List (Str × Str)) :
    List Upgrade → List (Str × Str)
  | [] => scopes
  | upgrade :: rest =>
    if !(isNonEmptyStrOpt (firstRegistryUrl upgrade))
        || !(isNonEmptyStrOpt upgrade.depName) then
      getRegistryYarnrcScopesGo scopes rest
    else if !(headIsAt (upgrade.depName.getD [])) then
      getRegistryYarnrcScopesGo scopes rest
    else
      let scope := (takeToSlash (upgrade.depName.getD [])).drop 1
      if scope ∈ scopes.map Prod.fst then
        getRegistryYarnrcScopesGo scopes rest
      else
        getRegistryYarnrcScopesGo
          (scopes ++ [(scope, (firstRegistryUrl upgrade).getD [])]) rest

/-- `getRegistryYarnrcScopes` from `npmrc.ts` (lines 103-131): `none`
models the explicit `undefined` returned when no scope qualifies. -/
def getRegistryYarnrcScopes (upgrades : List Upgrade) :
    Option (List (Str × Str)) :=
  let scopes := getRegistryYarnrcScopesGo [] upgrades
  if scopes.isEmpty then none else some scopes

end Npmrc

namespace Nuget

/-- Modelled from the spec: the designated temporary/infrastructure failure
marker `TEMPORARY_ERROR` imported from `constants/error-messages` (not under
`src/`); an opaque well-known string compared against a failure's message. -/
def TEMPORARY_ERROR : String := "temporary_error"

/-- Modelled from the spec: the central-package-management file name
`NUGET_CENTRAL_FILE` imported from `./package-tree` (not under `src/`). -/
def NUGET_CENTRAL_FILE : String := "Directory.Packages.props"

/-- Modelled from the spec: the MSBuild central-versions file name
`MSBUILD_CENTRAL_FILE` imported from `./package-tree` (not under `src/`). -/
def MSBUILD_CENTRAL_FILE : String := "Packages.props"

/-- Modelled from the spec: the SDK version-pin file name `GLOBAL_JSON`
imported from `./package-tree` (not under `src/`). -/
def GLOBAL_JSON : String := "global.json"

/-- JS `s.toLowerCase()` for the case-insensitive project-extension regex. -/
def lowerStr (s : String) : String := ⟨s.data.map Char.toLower⟩

/-- JS `t.endsWith(suffixStr)`. -/
def strEndsWith (s t : String) : Bool := t.data.isSuffixOf s.data

/-- The gate `regEx(/(?:cs|vb|fs)proj$/i).test(packageFileName)` of
`updateArtifacts` (line 144): the name ends in `csproj`, `vbproj` or
`fsproj`, case-insensitively. -/
def endsWithProjExt (s : String) : Bool :=
  strEndsWith (lowerStr s) "csproj" || strEndsWith (lowerStr s) "vbproj"
    || strEndsWith (lowerStr s) "fsproj"

/-- `isCentralManagement` from `updateArtifacts` (lines 133-137). -/
def isCentralManagementFile (p : String) : Bool :=
  p == NUGET_CENTRAL_FILE || p == MSBUILD_CENTRAL_FILE
    || strEndsWith p ("/" ++ NUGET_CENTRAL_FILE)
    || strEndsWith p ("/" ++ MSBUILD_CENTRAL_FILE)

/-- The early-return condition of `updateArtifacts` (lines 141-145):
`!isCentralManagement && !isGlobalJson && !regEx(/(?:cs|vb|fs)proj$/i).test(...)`. -/
def nonProjectFile (p : String) : Bool :=
  !(isCentralManagementFile p) && !(p == GLOBAL_JSON) && !(endsWithProjExt p)

/-- One entry of the dependent-file list returned by the external
`getDependentPackageFiles` collaborator: `{ name, isLeaf }`. -/
structure DependentFile where
  name : String
  isLeaf : Bool
deriving Repr, DecidableEq

/-- Modelled from the spec: `getSiblingFileName` from `util/fs` (not under
`src/`) — replaces the final path segment of `fileName` with `sibling`. -/
def getSiblingFileName (fileName sibling : String) : String :=
  let dir : List Char := (((fileName.data.reverse).dropWhile (fun c => c != '/')).reverse)
  ⟨dir ++ sibling.data⟩

/-- JS truthiness `!!val` of a `string | null | undefined` value: `null`,
`undefined` and the empty string are falsy. -/
def truthyOpt (v : Option String) : Bool :=
  match v with
  | some s => !s.isEmpty
  | none => false

/-- The watched lock file names (line 169-171): one
`packages.lock.json` sibling per dependent file — all dependents, leaf or
not. -/
def watchedLockFileNames (deps : List DependentFile) : List String :=
  deps.map (fun f => getSiblingFileName f.name "packages.lock.json")

/-- Modelled from the spec: `quote` from the external `shlex` library —
returns the string unchanged when it consists solely of shell-safe
characters, otherwise wraps it in single quotes, escaping embedded single
quotes; the empty string becomes a pair of single quotes. -/
def shlexSafeChar (c : Char) : Bool :=
  c.isAlphanum || ("_@%+=:,./-".data.contains c)

/-- Modelled from the spec: escaping step of shlex quoting — each single
quote becomes `'\''`. -/
def shlexEscape (s : List Char) : List Char :=
  s.flatMap (fun c => if c = '\x27' then "\x27\\\x27\x27".data else [c])

/-- Modelled from the spec: `quote` from the external `shlex` library. -/
def shlexQuote (s : String) : String :=
  if s.isEmpty then "\x27\x27"
  else if s.data.all shlexSafeChar then s
  else ⟨'\x27' :: shlexEscape s.data ++ ['\x27']⟩

/-- A JS failure value as observed by the catch block of `updateArtifacts`:
its `message` and its optional captured `stdout` text. -/
structure JsError where
  message : String
  stdout : Option String
deriving Repr, DecidableEq

/-- The `UpdateArtifactsConfig` fields consumed by the nuget engine. -/
structure NugetConfig where
  isLockFileMaintenance : Bool
  postUpdateOptions : List String
  constraintsDotnet : Option String
deriving Repr, DecidableEq

/-- The `updatedDeps` entries: only `registryUrls` is consumed (for the
generated `nuget.config`) besides the list's length. -/
structure NugetUpgrade where
  registryUrls : Option (List String)
deriving Repr, DecidableEq

/-- The `UpdateArtifact` input record of `updateArtifacts`. -/
structure UpdateArtifact where
  packageFileName : String
  newPackageFileContent : String
  config : NugetConfig
  updatedDeps : List NugetUpgrade
deriving Repr, DecidableEq

/-- `Array.from(new Set(xs))`: deduplication keeping first occurrences in
order (line 127-129). -/
def dedupFirstSeen (seen : List String) : List String → List String
  | [] => []
  | x :: rest =>
    if x ∈ seen then dedupFirstSeen seen rest
    else x :: dedupFirstSeen (x :: seen) rest

/-- `combinedRegistryUrls` of `updateArtifacts` (lines 127-129):
deduplicated registry URLs flat-mapped from `updatedDeps`. -/
def combinedRegistryUrls (updatedDeps : List NugetUpgrade) : List String :=
  dedupFirstSeen [] (updatedDeps.flatMap (fun d => d.registryUrls.getD []))

/-- `upath.join(privateCacheDir(), 'nuget')` + `upath.join(-, 'nuget.config')`
from `createCachedNuGetConfigFile`/`runDotnetRestore` (lines 67, 80), with
the external `privateCacheDir()` supplied as a value. -/
def nugetConfigFilePath (privateCacheDir : String) : String :=
  privateCacheDir ++ "/nuget" ++ "/nuget.config"

/-- The command list built by `runDotnetRestore` (lines 100-114): one
`dotnet restore` per dependent package file, with the workload-restore
command prepended when requested by `postUpdateOptions`. -/
def buildDotnetRestoreCmds (dependentPackageFileNames : List String)
    (nugetConfigFile : String) (config : NugetConfig) : List String :=
  let cmds := dependentPackageFileNames.map (fun fileName =>
    "dotnet restore " ++ shlexQuote fileName
      ++ " --force-evaluate --configfile " ++ shlexQuote nugetConfigFile)
  if config.postUpdateOptions.contains "dotnetWorkloadRestore" then
    ("dotnet workload restore --configfile " ++ shlexQuote nugetConfigFile) :: cmds
  else cmds

/-- An `{ type: 'addition', path, contents }` entry of a successful
`UpdateArtifactsResult`. -/
structure Addition where
  path : String
  contents : String
deriving Repr, DecidableEq

/-- The four observable outcomes of `updateArtifacts`: `null`, a list of
additions, a single artifact error, or a re-raised failure. -/
inductive UpdateOutcome where
  | retNull
  | retAdditions (files : List Addition)
  | retArtifactError (lockFile : String) (stderr : String)
  | reraise (e : JsError)
deriving Repr, DecidableEq

/-- The side effects performed by one `updateArtifacts` invocation:
whether `writeLocalFile(packageFileName, ...)` was attempted, the
deduplicated registry URLs handed to the generated `nuget.config` artifact
(`none` when `createCachedNuGetConfigFile` was never reached), and the
command sequence handed to `exec` (`none` when the toolchain was never
invoked). -/
structure NugetEffects where
  manifestWriteAttempted : Bool
  configRegistryUrls : Option (List String)
  execCmds : Option (List String)
deriving Repr, DecidableEq

/-- The answers of the effectful collaborators of `updateArtifacts`, fixed
per invocation: the dependent-file graph, the before snapshot
(`getFiles`), the private cache root, whether the manifest write throws,
whether toolchain execution throws, and the after snapshot
(`getLocalFiles`). -/
structure NugetEnv where
  deps : List DependentFile
  before : String → Option String
  privateCacheDir : String
  writeError : Option JsError
  execError : Option JsError
  after : String → Option String

/-- The catch block of `updateArtifacts` (lines 227-241): a failure whose
message equals `TEMPORARY_ERROR` is re-thrown; any other failure becomes a
single artifact error over the comma-joined watched lock file names, with
`stderr` taken from the failure's captured stdout, falling back to its
message. -/
def classifyError (e : JsError) (lockFileNames : List String) : UpdateOutcome :=
  if e.message == TEMPORARY_ERROR then .reraise e
  else .retArtifactError (String.intercalate ", " lockFileNames)
    (e.stdout.getD e.message)

/-- The diff loop of `updateArtifacts` (lines 207-224): unchanged files are
skipped; a changed file with truthy new content yields an addition with the
full new content; a changed file with missing (or empty) new content is
silently skipped (the source's `TODO` case). -/
def diffLockFiles (lockFileNames : List String)
    (before after : String → Option String) : List Addition :=
  match lockFileNames with
  | [] => []
  | n :: rest =>
    if before n == after n then diffLockFiles rest before after
    else if truthyOpt (after n) then
      { path := n, contents := (after n).getD "" } :: diffLockFiles rest before after
    else diffLockFiles rest before after

/-- `updateArtifacts` from `nuget/artifacts.ts` (lines 118-242), as the pure
outcome/effects transformer it denotes once the collaborators' answers are
fixed by `env`.  The generated `nuget.config` XML content
(`createNuGetConfigXml`, external) and the exec environment options are not
part of any observable compared here; the registry URLs fed into the config
artifact and the exact command strings are recorded in the effects. -/
def updateArtifacts (env : NugetEnv) (input : UpdateArtifact) :
    UpdateOutcome × NugetEffects :=
  if nonProjectFile input.packageFileName then
    (.retNull, ⟨false, none, none⟩)
  else
    let packageFiles := (env.deps.filter (fun d => d.isLeaf)).map (fun d => d.name)
    let lockFileNames := watchedLockFileNames env.deps
    if !(lockFileNames.any (fun n => truthyOpt (env.before n))) then
      (.retNull, ⟨false, none, none⟩)
    else if input.updatedDeps.length == 0 && !input.config.isLockFileMaintenance then
      (.retNull, ⟨false, none, none⟩)
    else
      match env.writeError with
      | some e => (classifyError e lockFileNames, ⟨true, none, none⟩)
      | none =>
        let urls := combinedRegistryUrls input.updatedDeps
        let cmds := buildDotnetRestoreCmds packageFiles
          (nugetConfigFilePath env.privateCacheDir) input.config
        match env.execError with
        | some e => (classifyError e lockFileNames, ⟨true, some urls, some cmds⟩)
        | none =>
          let retArray := diffLockFiles lockFileNames env.before env.after
          (if retArray.isEmpty then .retNull else .retAdditions retArray,
            ⟨true, some urls, some cmds⟩)

end Nuget

namespace Npmrc

/-- `m` occurs contiguously in `s` (the relational form of JS
`s.includes(m)`). -/
def OccursIn (m s : Str) : Prop := ∃ a b, s = a ++ m ++ b

/-- The per-upgrade eligibility test shared by both scope-extraction
functions, following the spec's words: an upgrade contributes a
`(scope, registryUrl)` pair iff it has a non-empty first registry URL and a
non-empty, scope-qualified (`@`-prefixed) dependency name; the pair's key
is the scope including its `@` sigil and its value is the first registry
URL. -/
def eligibleRegistryPair (u : Upgrade) : Option (Str × Str) :=
  if isNonEmptyStrOpt (firstRegistryUrl u) && isNonEmptyStrOpt u.depName
      && headIsAt (u.depName.getD []) then
    some (takeToSlash (u.depName.getD []), (firstRegistryUrl u).getD [])
  else none

/-- First-seen-wins deduplication of key/value pairs by key, carrying the
set of already-seen keys. -/
def firstSeenByKey (seen : List Str) : List (Str × Str) → List (Str × Str)
  | [] => []
  | p :: rest =>
    if p.1 ∈ seen then firstSeenByKey seen rest
    else p :: firstSeenByKey (p.1 :: seen) rest

/-- The spec-level scope table of an upgrade list: eligible
`(scope, registryUrl)` pairs in order, first-seen scope winning. -/
def specScopePairs (upgrades : List Upgrade) : List (Str × Str) :=
  firstSeenByKey [] (upgrades.filterMap eligibleRegistryPair)

/-- The upgrade list of the spec's concrete scope-extraction scenario:
`[{"@myorg/a", ["https://r/"]}, {"@myorg/b", ["https://r/"]}]`. -/
def c8example : List Upgrade :=
  [⟨some (str "@myorg/a"), some [str "https://r/"]⟩,
   ⟨some (str "@myorg/b"), some [str "https://r/"]⟩]

end Npmrc

namespace Nuget

/-- A concrete environment exercising the failure path: one leaf project
whose lock file exists, with toolchain execution failing with message
`boom` and captured stdout `restore failed`. -/
def c1Env : NugetEnv :=
  { deps := [⟨"proj/a.csproj", true⟩]
    before := fun n => if n = "proj/packages.lock.json" then some "lockcontent" else none
    privateCacheDir := "/cache"
    writeError := none
    execError := some ⟨"boom", some "restore failed"⟩
    after := fun _ => none }

/-- A one-upgrade input for the concrete nuget scenarios. -/
def c1Input : UpdateArtifact :=
  { packageFileName := "proj/a.csproj"
    newPackageFileContent := "manifest"
    config := { isLockFileMaintenance := false, postUpdateOptions := [], constraintsDotnet := none }
    updatedDeps := [⟨some ["https://r/"]⟩] }

/-- A concrete environment with a leaf project `proj/a.csproj` and a
non-leaf dependent `agg/b.csproj`; only the non-leaf's lock file exists,
and it changes across the run. -/
def c2Env : NugetEnv :=
  { deps := [⟨"proj/a.csproj", true⟩, ⟨"agg/b.csproj", false⟩]
    before := fun n => if n = "agg/packages.lock.json" then some "old" else none
    privateCacheDir := "/cache"
    writeError := none
    execError := none
    after := fun n => if n = "agg/packages.lock.json" then some "new" else none }

/-- Input for the `c2Env` scenario. -/
def c2Input : UpdateArtifact := c1Input

/-- A concrete environment in which the single watched lock file exists
before the run and has vanished after it. -/
def c3Env : NugetEnv :=
  { deps := [⟨"proj/a.csproj", true⟩]
    before := fun n => if n = "proj/packages.lock.json" then some "lockcontent" else none
    privateCacheDir := "/cache"
    writeError := none
    execError := none
    after := fun _ => none }

/-- Input for the `c3Env` scenario. -/
def c3Input : UpdateArtifact := c1Input

/-- A concrete environment in which the single watched lock file's content
changes from `old` to the (present but empty) string. -/
def c4Env : NugetEnv :=
  { c3Env with
    before := fun n => if n = "proj/packages.lock.json" then some "old" else none
    after := fun n => if n = "proj/packages.lock.json" then some "" else none }

/-- Input for the `c4Env` scenario. -/
def c4Input : UpdateArtifact := c1Input

/-- A concrete success-path environment: the single watched lock file
changes from `old` to `new`. -/
def c4wEnv : NugetEnv :=
  { c4Env with after := fun n => if n = "proj/packages.lock.json" then some "new" else none }

/-- A concrete environment in which no watched lock file has any existing
content. -/
def c7Env : NugetEnv :=
  { c3Env with before := fun _ => none }

end Nuget

namespace Nuget

theorem diffLockFiles_eq (ns : List String) (before after : String → Option String) :
    diffLockFiles ns before after =
      (ns.filter (fun n => !(before n == after n) && truthyOpt (after n))).map
        (fun n => ⟨n, (after n).getD ""⟩) := by
  induction ns with
  | nil => rfl
  | cons n rest ih =>
    by_cases h1 : (before n == after n) = true
    · simp [diffLockFiles, List.filter_cons, h1, ih]
    · by_cases h2 : truthyOpt (after n) = true
      · simp [diffLockFiles, List.filter_cons, h1, h2, ih]
      · simp [diffLockFiles, List.filter_cons, h1, h2, ih]

/-- C7: whenever no watched lock file has existing (truthy) content in the
before snapshot, `updateArtifacts` returns `null` and performs no effects:
the manifest is never written, no config artifact is generated and the
toolchain is never invoked. -/
theorem nuget_c7_noop_without_lock_content (env : NugetEnv) (input : UpdateArtifact)
    (h : ∀ n ∈ watchedLockFileNames env.deps, truthyOpt (env.before n) = false) :
    updateArtifacts env input = (.retNull, ⟨false, none, none⟩) := by
  unfold updateArtifacts
  by_cases h1 : nonProjectFile input.packageFileName
  · simp [h1]
  · have h2 : (watchedLockFileNames env.deps).any (fun n => truthyOpt (env.before n)) = false :=
      List.any_eq_false.mpr (fun x hx => by simp [h x hx])
    simp [h1, h2]

/-- Witness for C7 at a concrete environment with a leaf project and no
existing lock file content. -/
theorem nuget_c7_witness :
    updateArtifacts c7Env c1Input = (.retNull, ⟨false, none, none⟩) :=
  nuget_c7_noop_without_lock_content c7Env c1Input (by decide)

/-- C1: when the gates pass and the manifest write or the toolchain
execution throws a failure `e`, `updateArtifacts` re-raises `e` unchanged
iff its message equals `TEMPORARY_ERROR`, and otherwise returns exactly one
artifact error whose `lockFile` is the comma-joined watched lock file names
and whose `stderr` is the failure's captured stdout, or its message when no
captured output exists. -/
theorem nuget_c1_failure_classification (env : NugetEnv) (input : UpdateArtifact)
    (e : JsError)
    (h1 : nonProjectFile input.packageFileName = false)
    (h2 : (watchedLockFileNames env.deps).any (fun n => truthyOpt (env.before n)) = true)
    (h3 : (input.updatedDeps.length == 0 && !input.config.isLockFileMaintenance) = false)
    (h4 : env.writeError = some e ∨ (env.writeError = none ∧ env.execError = some e)) :
    (updateArtifacts env input).fst =
      (if e.message == TEMPORARY_ERROR then UpdateOutcome.reraise e
       else UpdateOutcome.retArtifactError
         (String.intercalate ", " (watchedLockFileNames env.deps))
         (e.stdout.getD e.message)) := by
  unfold updateArtifacts
  rcases h4 with hw | ⟨hw, he⟩
  · simp [h1, h2, h3, hw, classifyError]
  · simp [h1, h2, h3, hw, he, classifyError]

/-- Witness for C1: a non-temporary toolchain failure at `c1Env` is
converted to a single artifact error carrying the captured stdout. -/
theorem nuget_c1_witness :
    (updateArtifacts c1Env c1Input).fst =
      .retArtifactError "proj/packages.lock.json" "restore failed" := by
  rw [nuget_c1_failure_classification c1Env c1Input ⟨"boom", some "restore failed"⟩
    (by decide) (by decide) (by decide) (Or.inr ⟨rfl, rfl⟩)]
  decide

/-- C2 counterexample: with a leaf `proj/a.csproj` and a non-leaf
`agg/b.csproj`, the engine watches, diffs and reports the non-leaf's lock
file `agg/packages.lock.json` — a file not derived from the leaf subset —
so the lock files watched are not decided by the leaf subset alone. -/
theorem nuget_c2_counterexample :
    updateArtifacts c2Env c2Input =
      (.retAdditions [⟨"agg/packages.lock.json", "new"⟩],
        ⟨true, some ["https://r/"],
          some ["dotnet restore proj/a.csproj --force-evaluate --configfile /cache/nuget/nuget.config"]⟩) ∧
      "agg/packages.lock.json" ∉
        watchedLockFileNames (c2Env.deps.filter (fun d => d.isLeaf)) := by
  decide

/-- C2 amended: the restore commands are built from the leaf subset of the
dependent files only, while the lock file names watched for snapshot and
diff are the siblings of all dependent files, leaf or not. -/
theorem nuget_c2_amended (env : NugetEnv) (input : UpdateArtifact)
    (h1 : nonProjectFile input.packageFileName = false)
    (h2 : (watchedLockFileNames env.deps).any (fun n => truthyOpt (env.before n)) = true)
    (h3 : (input.updatedDeps.length == 0 && !input.config.isLockFileMaintenance) = false)
    (hw : env.writeError = none) (he : env.execError = none) :
    (updateArtifacts env input).snd =
      ⟨true, some (combinedRegistryUrls input.updatedDeps),
        some (buildDotnetRestoreCmds
          ((env.deps.filter (fun d => d.isLeaf)).map (fun d => d.name))
          (nugetConfigFilePath env.privateCacheDir) input.config)⟩ ∧
    (updateArtifacts env input).fst =
      (if (diffLockFiles (watchedLockFileNames env.deps) env.before env.after).isEmpty
       then UpdateOutcome.retNull
       else UpdateOutcome.retAdditions
         (diffLockFiles (watchedLockFileNames env.deps) env.before env.after)) := by
  unfold updateArtifacts
  simp [h1, h2, h3, hw, he]

/-- Witness for C2 amended at the concrete `c2Env`. -/
theorem nuget_c2_amended_witness :
    (updateArtifacts c2Env c2Input).snd =
      ⟨true, some (combinedRegistryUrls c2Input.updatedDeps),
        some (buildDotnetRestoreCmds
          ((c2Env.deps.filter (fun d => d.isLeaf)).map (fun d => d.name))
          (nugetConfigFilePath c2Env.privateCacheDir) c2Input.config)⟩ ∧
    (updateArtifacts c2Env c2Input).fst =
      (if (diffLockFiles (watchedLockFileNames c2Env.deps) c2Env.before c2Env.after).isEmpty
       then UpdateOutcome.retNull
       else UpdateOutcome.retAdditions
         (diffLockFiles (watchedLockFileNames c2Env.deps) c2Env.before c2Env.after)) :=
  nuget_c2_amended c2Env c2Input (by decide) (by decide) (by decide) rfl rfl

/-- C3: at the concrete failing input `c3Env` — the watched lock file
`proj/packages.lock.json` has content before the run and is absent after —
`updateArtifacts` returns `null`, silently treating the vanished lock file
as unchanged instead of surfacing the anomaly in its result. -/
theorem nuget_c3_vanished_lockfile_not_surfaced :
    (updateArtifacts c3Env c3Input).fst = .retNull ∧
      truthyOpt (c3Env.before "proj/packages.lock.json") = true ∧
      c3Env.after "proj/packages.lock.json" = none := by
  decide

/-- C4 counterexample: a watched lock file whose after content differs from
its before content and is present (the empty string) yields no Addition:
the whole result is `null`. -/
theorem nuget_c4_counterexample :
    (updateArtifacts c4Env c4Input).fst = .retNull ∧
      c4Env.before "proj/packages.lock.json" ≠ c4Env.after "proj/packages.lock.json" ∧
      (c4Env.after "proj/packages.lock.json").isSome = true := by
  decide

/-- C4 amended: on the success path each watched lock file whose after
content equals its before content is omitted; each watched lock file whose
after content differs and is present with non-empty (truthy) content yields
one Addition carrying the full new content; and when that addition list is
empty the result is `null`, never an empty list. -/
theorem nuget_c4_amended (env : NugetEnv) (input : UpdateArtifact)
    (h1 : nonProjectFile input.packageFileName = false)
    (h2 : (watchedLockFileNames env.deps).any (fun n => truthyOpt (env.before n)) = true)
    (h3 : (input.updatedDeps.length == 0 && !input.config.isLockFileMaintenance) = false)
    (hw : env.writeError = none) (he : env.execError = none) :
    (updateArtifacts env input).fst =
      (if ((watchedLockFileNames env.deps).filter
            (fun n => !(env.before n == env.after n) && truthyOpt (env.after n))).isEmpty
       then UpdateOutcome.retNull
       else UpdateOutcome.retAdditions
         (((watchedLockFileNames env.deps).filter
            (fun n => !(env.before n == env.after n) && truthyOpt (env.after n))).map
          (fun n => ⟨n, (env.after n).getD ""⟩))) := by
  unfold updateArtifacts
  simp [h1, h2, h3, hw, he, diffLockFiles_eq]

/-- Witness for C4 amended at the concrete `c4wEnv`, where the single
watched lock file changes from `old` to `new`. -/
theorem nuget_c4_amended_witness :
    (updateArtifacts c4wEnv c4Input).fst =
      .retAdditions [⟨"proj/packages.lock.json", "new"⟩] := by
  rw [nuget_c4_amended c4wEnv c4Input (by decide) (by decide) (by decide) rfl rfl]
  decide

end Nuget

namespace Npmrc

/-- C5: when no repository `.npmrc` file is found, `resolveNpmrc` returns
the caller-supplied config text exactly, with provenance `null` — so
re-resolving an already-merged text is the identity. -/
theorem npm_c5_idempotent (env : NpmrcEnv) (packageFile t : Str)
    (config : NpmrcConfig)
    (hfound : env.foundNpmrcFile = none) (ht : config.npmrc = some t) :
    resolveNpmrc env packageFile config = ⟨some t, none⟩ := by
  simp [resolveNpmrc, hfound, ht]

/-- Witness for C5 at a concrete caller text. -/
theorem npm_c5_witness :
    resolveNpmrc ⟨none, none, false⟩ (str "package.json")
      ⟨some (str "config-npmrc"), false⟩ =
      ⟨some (str "config-npmrc"), none⟩ :=
  npm_c5_idempotent ⟨none, none, false⟩ (str "package.json")
    (str "config-npmrc") ⟨some (str "config-npmrc"), false⟩ rfl rfl

/-- C9: when a repository `.npmrc` file is found but reading it yields a
non-string, the resolved text is `undefined` — the caller-supplied config
text is dropped — while the provenance is still the found file's name. -/
theorem npm_c9_nonstring_repo_content (env : NpmrcEnv) (packageFile : Str)
    (config : NpmrcConfig) (f : Str)
    (hf : env.foundNpmrcFile = some f) (hc : env.repoFileContent = none) :
    resolveNpmrc env packageFile config = ⟨none, some f⟩ := by
  simp [resolveNpmrc, hf, hc]

/-- Witness for C9: the caller text `config-npmrc` is dropped when the
found `.npmrc` reads back as a non-string. -/
theorem npm_c9_witness :
    resolveNpmrc ⟨some (str ".npmrc"), none, false⟩ (str "package.json")
      ⟨some (str "config-npmrc"), false⟩ =
      ⟨none, some (str ".npmrc")⟩ :=
  npm_c9_nonstring_repo_content ⟨some (str ".npmrc"), none, false⟩
    (str "package.json") ⟨some (str "config-npmrc"), false⟩ (str ".npmrc") rfl rfl

theorem isPrefixOf_iff_exists (m s : Str) : m.isPrefixOf s = true ↔ ∃ t, m ++ t = s := by
  induction m generalizing s with
  | nil =>
    constructor
    · intro _; exact ⟨s, rfl⟩
    · intro _; cases s <;> rfl
  | cons y m' ih =>
    cases s with
    | nil =>
      rw [show (y :: m').isPrefixOf [] = false from rfl]
      constructor
      · intro h; cases h
      · rintro ⟨t, ht⟩; cases ht
    | cons x s' =>
      rw [show (y :: m').isPrefixOf (x :: s') = (y == x && m'.isPrefixOf s') from rfl]
      rw [Bool.and_eq_true, beq_iff_eq, ih]
      constructor
      · rintro ⟨rfl, t, rfl⟩; exact ⟨t, rfl⟩
      · rintro ⟨t, ht⟩
        simp only [List.cons_append, List.cons.injEq] at ht
        exact ⟨ht.1, t, ht.2⟩

theorem hasSub_iff (s m : Str) : hasSub s m = true ↔ OccursIn m s := by
  induction s with
  | nil =>
    simp only [hasSub, OccursIn, List.isEmpty_iff]
    constructor
    · rintro rfl; exact ⟨[], [], rfl⟩
    · rintro ⟨a, b, hab⟩
      rcases List.append_eq_nil.mp ((List.append_eq_nil.mp hab.symm).1) with ⟨-, h⟩
      exact h
  | cons c rest ih =>
    simp only [hasSub, Bool.or_eq_true, isPrefixOf_iff_exists, ih]
    constructor
    · rintro (⟨t, ht⟩ | ⟨a, b, hab⟩)
      · exact ⟨[], t, ht.symm⟩
      · exact ⟨c :: a, b, by simp [hab]⟩
    · rintro ⟨a, b, hab⟩
      cases a with
      | nil => exact Or.inl ⟨b, by simpa using hab.symm⟩
      | cons x a' =>
        simp only [List.cons_append, List.cons.injEq] at hab
        exact Or.inr ⟨a', b, hab.2⟩

theorem pre_through_sep {m : Str} {c : Char} (hc : c ∉ m) :
    ∀ {a b : Str}, (∃ t, m ++ t = a ++ c :: b) → ∃ t, m ++ t = a := by
  induction m with
  | nil => exact fun {a b} _ => ⟨a, rfl⟩
  | cons y m' ih =>
    rintro a b ⟨t, ht⟩
    cases a with
    | nil =>
      simp only [List.cons_append, List.nil_append, List.cons.injEq] at ht
      exact absurd (ht.1 ▸ List.mem_cons_self y m') hc
    | cons x a' =>
      simp only [List.cons_append, List.cons.injEq] at ht
      obtain ⟨t', ht'⟩ := ih (fun hm => hc (List.mem_cons_of_mem _ hm)) ⟨t, ht.2⟩
      exact ⟨t', by simp [ht.1, ht']⟩

theorem occurs_split {m : Str} {c : Char} (hc : c ∉ m) :
    ∀ {a b : Str}, OccursIn m (a ++ c :: b) → OccursIn m a ∨ OccursIn m b := by
  rintro a b ⟨s, t, hst⟩
  induction s generalizing a with
  | nil =>
    simp only [List.nil_append] at hst
    obtain ⟨t', ht'⟩ := pre_through_sep hc ⟨t, hst.symm⟩
    exact Or.inl ⟨[], t', by simp [ht'.symm]⟩
  | cons x s' ih =>
    cases a with
    | nil =>
      simp only [List.nil_append, List.cons_append, List.cons.injEq] at hst
      exact Or.inr ⟨s', t, hst.2⟩
    | cons x' a' =>
      simp only [List.cons_append, List.cons.injEq] at hst
      rcases ih hst.2 with h | h
      · obtain ⟨xa, yb, hxy⟩ := h
        exact Or.inl ⟨x' :: xa, yb, by simp [hxy]⟩
      · exact Or.inr h

theorem occurs_joinNL {m : Str} (hm : m ≠ []) (hn : '\n' ∉ m) :
    ∀ ls : List Str, (∀ l ∈ ls, ¬ OccursIn m l) → ¬ OccursIn m (joinNL ls) := by
  intro ls
  induction ls with
  | nil =>
    intro _ hocc
    obtain ⟨a, b, hab⟩ := hocc
    exact hm (List.append_eq_nil.mp ((List.append_eq_nil.mp hab.symm).1)).2
  | cons l rest ih =>
    cases rest with
    | nil =>
      intro h hocc
      exact h l (by simp) (by simpa [joinNL] using hocc)
    | cons l' rest' =>
      intro h hocc
      rw [show joinNL (l :: l' :: rest') = l ++ '\n' :: joinNL (l' :: rest') from rfl] at hocc
      rcases occurs_split hn hocc with h1 | h2
      · exact h l (by simp) h1
      · exact ih (fun x hx => h x (by simp [hx])) h2

/-- C6 counterexample: with the expose-all-environment flag set, the
repository line `package-lock=${X}` — a line containing the unresolved
interpolation marker — is not preserved: it is stripped by the
unconditional `package-lock` filter, so the resolved text no longer
contains the marker. -/
theorem npm_c6_counterexample :
    resolveNpmrc ⟨some (str ".npmrc"), some (str "a=1\npackage-lock=$\x7bX\x7d\n"), true⟩
        (str "package.json") ⟨none, false⟩ =
      ⟨some (str "a=1\n"), some (str ".npmrc")⟩ ∧
      hasSub (str "a=1\npackage-lock=$\x7bX\x7d\n") varMarker = true ∧
      hasSub (str "a=1\n") varMarker = false := by
  decide

/-- C6 amended: when the expose-all-environment flag is unset, no
occurrence of the unresolved interpolation marker `=${` survives into the
filtered repository text (every line containing it is removed); when the
flag is set, the repository text is preserved byte-for-byte provided it
does not contain the `package-lock` directive — whose stripping runs
unconditionally, before and independently of the interpolation filter. -/
theorem npm_c6_amended (repoNpmrc : Str) :
    hasSub (filterRepoNpmrc false repoNpmrc) varMarker = false ∧
      (hasSub repoNpmrc pkgLockStr = false →
        filterRepoNpmrc true repoNpmrc = repoNpmrc) := by
  constructor
  · unfold filterRepoNpmrc
    set repo1 := if hasSub repoNpmrc pkgLockStr then pkgLockReplace repoNpmrc
      else repoNpmrc with hrepo1
    by_cases h : hasSub repo1 varMarker = true
    · simp only [h, Bool.not_false, Bool.and_true, if_true]
      rw [← Bool.not_eq_true, hasSub_iff]
      apply occurs_joinNL (by decide) (by decide)
      intro l hl
      rw [← hasSub_iff, Bool.not_eq_true]
      simpa using (List.mem_filter.mp hl).2
    · simp only [Bool.not_eq_true] at h
      simp [h]
  · intro hb
    simp [filterRepoNpmrc, hb]

/-- Witness for C6 amended: the marker is removed with the flag unset, and
a `package-lock`-free repository text passes through unchanged with the
flag set. -/
theorem npm_c6_amended_witness :
    hasSub (filterRepoNpmrc false (str "a=$\x7bX\x7d\nb=1\n")) varMarker = false ∧
      filterRepoNpmrc true (str "b=1\n") = str "b=1\n" :=
  ⟨(npm_c6_amended (str "a=$\x7bX\x7d\nb=1\n")).1,
   (npm_c6_amended (str "b=1\n")).2 (by decide)⟩

end Npmrc

namespace Npmrc

theorem headIsAt_takeToSlash {d : Str} (h : headIsAt d = true) :
    takeToSlash d = '@' :: (takeToSlash d).drop 1 := by
  cases d with
  | nil => cases h
  | cons c d' =>
    have hc : c = '@' := by simpa [headIsAt] using h
    subst hc
    simp [takeToSlash, List.takeWhile_cons]

theorem key_head_at {u : Upgrade} {k r : Str}
    (hE : eligibleRegistryPair u = some (k, r)) : k = '@' :: k.drop 1 := by
  unfold eligibleRegistryPair at hE
  by_cases h : (isNonEmptyStrOpt (firstRegistryUrl u) && isNonEmptyStrOpt u.depName
      && headIsAt (u.depName.getD [])) = true
  · rw [if_pos h] at hE
    have hk : takeToSlash (u.depName.getD []) = k :=
      congrArg Prod.fst (Option.some.inj hE)
    have hC : headIsAt (u.depName.getD []) = true := by
      simp only [Bool.and_eq_true] at h
      exact h.2
    rw [← hk]
    exact headIsAt_takeToSlash hC
  · rw [if_neg h] at hE; cases hE

theorem linesGo_skip {u : Upgrade} {rest : List Upgrade} {seen : List Str}
    (hE : eligibleRegistryPair u = none) :
    getRegistryNpmrcLinesGo seen (u :: rest) = getRegistryNpmrcLinesGo seen rest := by
  unfold eligibleRegistryPair at hE
  cases hA : isNonEmptyStrOpt (firstRegistryUrl u) <;>
    cases hB : isNonEmptyStrOpt u.depName <;>
    cases hC : headIsAt (u.depName.getD []) <;>
    simp_all [getRegistryNpmrcLinesGo]

theorem linesGo_emit {u : Upgrade} {rest : List Upgrade} {seen : List Str} {k r : Str}
    (hE : eligibleRegistryPair u = some (k, r)) :
    getRegistryNpmrcLinesGo seen (u :: rest) =
      (if k ∈ seen then getRegistryNpmrcLinesGo seen rest
       else (k ++ str ":registry=" ++ r) :: getRegistryNpmrcLinesGo (k :: seen) rest) := by
  unfold eligibleRegistryPair at hE
  by_cases h : (isNonEmptyStrOpt (firstRegistryUrl u) && isNonEmptyStrOpt u.depName
      && headIsAt (u.depName.getD [])) = true
  · rw [if_pos h] at hE
    have hk : takeToSlash (u.depName.getD []) = k :=
      congrArg Prod.fst (Option.some.inj hE)
    have hr : (firstRegistryUrl u).getD [] = r :=
      congrArg Prod.snd (Option.some.inj hE)
    simp only [Bool.and_eq_true] at h
    simp [getRegistryNpmrcLinesGo, h.1.1, h.1.2, h.2, hk, hr]
  · rw [if_neg h] at hE; cases hE

theorem scopesGo_skip {u : Upgrade} {rest : List Upgrade} {acc : List (Str × Str)}
    (hE : eligibleRegistryPair u = none) :
    getRegistryYarnrcScopesGo acc (u :: rest) = getRegistryYarnrcScopesGo acc rest := by
  unfold eligibleRegistryPair at hE
  cases hA : isNonEmptyStrOpt (firstRegistryUrl u) <;>
    cases hB : isNonEmptyStrOpt u.depName <;>
    cases hC : headIsAt (u.depName.getD []) <;>
    simp_all [getRegistryYarnrcScopesGo]

theorem scopesGo_emit {u : Upgrade} {rest : List Upgrade} {acc : List (Str × Str)}
    {k r : Str} (hE : eligibleRegistryPair u = some (k, r)) :
    getRegistryYarnrcScopesGo acc (u :: rest) =
      (if k.drop 1 ∈ acc.map Prod.fst then getRegistryYarnrcScopesGo acc rest
       else getRegistryYarnrcScopesGo (acc ++ [(k.drop 1, r)]) rest) := by
  unfold eligibleRegistryPair at hE
  by_cases h : (isNonEmptyStrOpt (firstRegistryUrl u) && isNonEmptyStrOpt u.depName
      && headIsAt (u.depName.getD [])) = true
  · rw [if_pos h] at hE
    have hk : takeToSlash (u.depName.getD []) = k :=
      congrArg Prod.fst (Option.some.inj hE)
    have hr : (firstRegistryUrl u).getD [] = r :=
      congrArg Prod.snd (Option.some.inj hE)
    simp only [Bool.and_eq_true] at h
    simp only [getRegistryYarnrcScopesGo, h.1.1, h.1.2, h.2, hk, hr,
      Bool.not_true, Bool.or_self, Bool.false_or, Bool.or_false, if_false,
      Bool.false_eq_true, ite_false]
  · rw [if_neg h] at hE; cases hE

theorem mem_atKeys {s' : Str} {acc : List (Str × Str)} :
    ('@' :: s') ∈ acc.map (fun p => '@' :: p.1) ↔ s' ∈ acc.map Prod.fst := by
  simp [List.mem_map]

theorem firstSeenByKey_congr : ∀ (ps : List (Str × Str)) {s₁ s₂ : List Str},
    (∀ k, k ∈ s₁ ↔ k ∈ s₂) → firstSeenByKey s₁ ps = firstSeenByKey s₂ ps := by
  intro ps
  induction ps with
  | nil => intro s₁ s₂ _; rfl
  | cons p rest ih =>
    intro s₁ s₂ h
    by_cases hp : p.1 ∈ s₁
    · have hp2 : p.1 ∈ s₂ := (h p.1).mp hp
      simp only [firstSeenByKey, if_pos hp, if_pos hp2]
      exact ih h
    · have hp2 : p.1 ∉ s₂ := fun hx => hp ((h p.1).mpr hx)
      simp only [firstSeenByKey, if_neg hp, if_neg hp2]
      have h' : ∀ k, k ∈ p.1 :: s₁ ↔ k ∈ p.1 :: s₂ := by
        intro k; simp [h k]
      rw [ih h']

theorem linesGo_eq_spec : ∀ (ups : List Upgrade) (seen : List Str),
    getRegistryNpmrcLinesGo seen ups =
      (firstSeenByKey seen (ups.filterMap eligibleRegistryPair)).map
        (fun p => p.1 ++ str ":registry=" ++ p.2) := by
  intro ups
  induction ups with
  | nil => intro seen; rfl
  | cons u rest ih =>
    intro seen
    cases hE : eligibleRegistryPair u with
    | none => rw [linesGo_skip hE]; simp [List.filterMap_cons, hE, ih]
    | some p =>
      obtain ⟨k, r⟩ := p
      rw [linesGo_emit hE]
      simp only [List.filterMap_cons, hE]
      by_cases hk : k ∈ seen
      · simp [firstSeenByKey, hk, ih]
      · simp [firstSeenByKey, hk, ih]

theorem scopesGo_eq_spec : ∀ (ups : List Upgrade) (acc : List (Str × Str)),
    getRegistryYarnrcScopesGo acc ups =
      acc ++ (firstSeenByKey (acc.map (fun p => '@' :: p.1))
        (ups.filterMap eligibleRegistryPair)).map (fun p => (p.1.drop 1, p.2)) := by
  intro ups
  induction ups with
  | nil => intro acc; simp [getRegistryYarnrcScopesGo, firstSeenByKey]
  | cons u rest ih =>
    intro acc
    cases hE : eligibleRegistryPair u with
    | none => rw [scopesGo_skip hE]; simp [List.filterMap_cons, hE, ih]
    | some p =>
      obtain ⟨k, r⟩ := p
      have hkey : k = '@' :: k.drop 1 := key_head_at hE
      rw [scopesGo_emit hE]
      simp only [List.filterMap_cons, hE]
      by_cases hk : k.drop 1 ∈ acc.map Prod.fst
      · have hk2 : k ∈ acc.map (fun p => '@' :: p.1) := by
          rw [hkey]; exact mem_atKeys.mpr hk
        rw [if_pos hk,
          show firstSeenByKey (acc.map (fun p => '@' :: p.1))
              ((k, r) :: rest.filterMap eligibleRegistryPair) =
            firstSeenByKey (acc.map (fun p => '@' :: p.1))
              (rest.filterMap eligibleRegistryPair) from by
            simp [firstSeenByKey, hk2]]
        exact ih acc
      · have hk2 : k ∉ acc.map (fun p => '@' :: p.1) := by
          rw [hkey]; exact fun hx => hk (mem_atKeys.mp hx)
        rw [if_neg hk, ih (acc ++ [(k.drop 1, r)]),
          show firstSeenByKey (acc.map (fun p => '@' :: p.1))
              ((k, r) :: rest.filterMap eligibleRegistryPair) =
            (k, r) :: firstSeenByKey (k :: acc.map (fun p => '@' :: p.1))
              (rest.filterMap eligibleRegistryPair) from by
            simp [firstSeenByKey, hk2]]
        have hequiv : ∀ x : Str,
            x ∈ (acc ++ [(k.drop 1, r)]).map (fun p => '@' :: p.1) ↔
              x ∈ k :: acc.map (fun p => '@' :: p.1) := by
          intro x
          simp only [List.map_append, List.map_cons, List.map_nil, List.mem_append,
            List.mem_cons, List.not_mem_nil, or_false]
          rw [← hkey]
          exact or_comm
        rw [firstSeenByKey_congr (rest.filterMap eligibleRegistryPair) hequiv,
          List.map_cons, ← List.append_cons]

theorem lines_eq_spec (upgrades : List Upgrade) :
    getRegistryNpmrcLines upgrades =
      (specScopePairs upgrades).map (fun p => p.1 ++ str ":registry=" ++ p.2) :=
  linesGo_eq_spec upgrades []

theorem yarn_eq_spec (upgrades : List Upgrade) :
    getRegistryYarnrcScopes upgrades =
      (if (specScopePairs upgrades).isEmpty then none
       else some ((specScopePairs upgrades).map (fun p => (p.1.drop 1, p.2)))) := by
  unfold getRegistryYarnrcScopes
  rw [scopesGo_eq_spec upgrades []]
  simp only [List.map_nil, List.nil_append]
  rw [show firstSeenByKey ([] : List Str) (upgrades.filterMap eligibleRegistryPair) =
    specScopePairs upgrades from rfl]
  by_cases hsp : specScopePairs upgrades = []
  · simp [hsp]
  · have h1 : (specScopePairs upgrades).isEmpty = false := by
      simpa [List.isEmpty_iff] using hsp
    have h2 : ((specScopePairs upgrades).map
        (fun p => (p.1.drop 1, p.2))).isEmpty = false := by
      simp [List.isEmpty_iff, hsp]
    simp [h1, h2, hsp]

theorem fsb_sub : ∀ (seen : List Str) (ps : List (Str × Str)) (p : Str × Str),
    p ∈ firstSeenByKey seen ps → p ∈ ps := by
  intro seen ps
  induction ps generalizing seen with
  | nil => intro p h; cases h
  | cons q rest ih =>
    intro p h
    by_cases hq : q.1 ∈ seen
    · rw [show firstSeenByKey seen (q :: rest) = firstSeenByKey seen rest from by
        simp [firstSeenByKey, hq]] at h
      exact List.mem_cons_of_mem _ (ih _ p h)
    · rw [show firstSeenByKey seen (q :: rest) =
          q :: firstSeenByKey (q.1 :: seen) rest from by
        simp [firstSeenByKey, hq]] at h
      rcases List.mem_cons.mp h with h | h
      · simp [h]
      · exact List.mem_cons_of_mem _ (ih _ p h)

theorem spec_keys_head_at (upgrades : List Upgrade) :
    ∀ p ∈ specScopePairs upgrades, p.1 = '@' :: p.1.drop 1 := by
  intro p hp
  have hp2 : p ∈ upgrades.filterMap eligibleRegistryPair := fsb_sub [] _ p hp
  obtain ⟨u, _, hE⟩ := List.mem_filterMap.mp hp2
  obtain ⟨k, r⟩ := p
  exact key_head_at hE

theorem fsb_append_last : ∀ (seen : List Str) (ps : List (Str × Str)) (p : Str × Str),
    (p.1 ∈ (firstSeenByKey seen ps).map Prod.fst ∨ p.1 ∈ seen) →
    firstSeenByKey seen (ps ++ [p]) = firstSeenByKey seen ps := by
  intro seen ps
  induction ps generalizing seen with
  | nil =>
    intro p h
    rcases h with h | h
    · simp [firstSeenByKey] at h
    · simp [firstSeenByKey, h]
  | cons q rest ih =>
    intro p h
    by_cases hq : q.1 ∈ seen
    · rw [List.cons_append,
        show firstSeenByKey seen (q :: (rest ++ [p])) = firstSeenByKey seen (rest ++ [p]) from by
          simp [firstSeenByKey, hq],
        show firstSeenByKey seen (q :: rest) = firstSeenByKey seen rest from by
          simp [firstSeenByKey, hq]]
      apply ih
      rwa [show firstSeenByKey seen (q :: rest) = firstSeenByKey seen rest from by
        simp [firstSeenByKey, hq]] at h
    · rw [List.cons_append,
        show firstSeenByKey seen (q :: (rest ++ [p])) =
            q :: firstSeenByKey (q.1 :: seen) (rest ++ [p]) from by
          simp [firstSeenByKey, hq],
        show firstSeenByKey seen (q :: rest) =
            q :: firstSeenByKey (q.1 :: seen) rest from by
          simp [firstSeenByKey, hq]]
      congr 1
      apply ih
      rw [show firstSeenByKey seen (q :: rest) =
          q :: firstSeenByKey (q.1 :: seen) rest from by
        simp [firstSeenByKey, hq]] at h
      rcases h with h | h
      · rw [List.map_cons] at h
        rcases List.mem_cons.mp h with h | h
        · exact Or.inr (by simp [h])
        · exact Or.inl h
      · exact Or.inr (List.mem_cons_of_mem _ h)

theorem spec_determines {ups₁ ups₂ : List Upgrade}
    (h : specScopePairs ups₁ = specScopePairs ups₂) :
    getRegistryNpmrcLines ups₁ = getRegistryNpmrcLines ups₂ ∧
      getRegistryYarnrcScopes ups₁ = getRegistryYarnrcScopes ups₂ := by
  rw [lines_eq_spec, lines_eq_spec, yarn_eq_spec, yarn_eq_spec, h]
  exact ⟨rfl, rfl⟩

end Npmrc

namespace Npmrc

/-- C10: for every upgrade list, the line-form and map-form extractions
cover exactly the same scopes with the same first-seen registry URLs — the
line form keys each entry by the scope including the leading `@` sigil
(emitting `@scope:registry=<url>`), the map form keys by the scope with the
`@` stripped — and the map is absent exactly when the line list is empty. -/
theorem npm_c10_same_scopes (upgrades : List Upgrade) :
    getRegistryNpmrcLines upgrades =
      ((getRegistryYarnrcScopes upgrades).getD []).map
        (fun p => ('@' :: p.1) ++ str ":registry=" ++ p.2) ∧
      (getRegistryYarnrcScopes upgrades = none ↔
        getRegistryNpmrcLines upgrades = []) := by
  have hl := lines_eq_spec upgrades
  have hy := yarn_eq_spec upgrades
  by_cases hsp : specScopePairs upgrades = []
  · rw [hl, hy]; simp [hsp]
  · have h1 : (specScopePairs upgrades).isEmpty = false := by
      simpa [List.isEmpty_iff] using hsp
    rw [hl, hy, h1]
    simp only [Bool.false_eq_true, if_false, Option.getD_some, List.map_map]
    constructor
    · apply List.map_congr_left
      intro p hp
      have hp1 := spec_keys_head_at upgrades p hp
      simp only [Function.comp_apply]
      rw [← hp1]
    · constructor
      · intro h; cases h
      · intro h
        exact absurd (List.map_eq_nil_iff.mp h) hsp

/-- C8: scope extraction is deterministic for both dialects — the empty
upgrade list yields an empty line list and an absent map; the spec's
two-upgrade `@myorg` example yields exactly one entry per dialect using
`https://r/`; upgrades with no usable first registry URL, no dependency
name, or an unscoped name are skipped; only the first registry URL of a
multi-URL upgrade matters; and a later upgrade for an already-seen scope is
ignored by both dialects. -/
theorem npm_c8_scope_extraction :
    (getRegistryNpmrcLines [] = [] ∧ getRegistryYarnrcScopes [] = none) ∧
    (getRegistryNpmrcLines c8example = [str "@myorg:registry=https://r/"] ∧
      getRegistryYarnrcScopes c8example = some [(str "myorg", str "https://r/")]) ∧
    (∀ pre post u, eligibleRegistryPair u = none →
      getRegistryNpmrcLines (pre ++ u :: post) = getRegistryNpmrcLines (pre ++ post) ∧
      getRegistryYarnrcScopes (pre ++ u :: post) = getRegistryYarnrcScopes (pre ++ post)) ∧
    (∀ pre post d rs registryUrl,
      getRegistryNpmrcLines
          (pre ++ (⟨d, some (registryUrl :: rs)⟩ : Upgrade) :: post) =
        getRegistryNpmrcLines (pre ++ (⟨d, some [registryUrl]⟩ : Upgrade) :: post) ∧
      getRegistryYarnrcScopes
          (pre ++ (⟨d, some (registryUrl :: rs)⟩ : Upgrade) :: post) =
        getRegistryYarnrcScopes (pre ++ (⟨d, some [registryUrl]⟩ : Upgrade) :: post)) ∧
    (∀ ups u k r, eligibleRegistryPair u = some (k, r) →
      k ∈ (specScopePairs ups).map Prod.fst →
      getRegistryNpmrcLines (ups ++ [u]) = getRegistryNpmrcLines ups ∧
      getRegistryYarnrcScopes (ups ++ [u]) = getRegistryYarnrcScopes ups) := by
  refine ⟨⟨rfl, rfl⟩, by decide, ?_, ?_, ?_⟩
  · intro pre post u hE
    apply spec_determines
    simp [specScopePairs, List.filterMap_append, List.filterMap_cons, hE]
  · intro pre post d rs registryUrl
    apply spec_determines
    have hEq : eligibleRegistryPair ⟨d, some (registryUrl :: rs)⟩ =
        eligibleRegistryPair ⟨d, some [registryUrl]⟩ := rfl
    simp [specScopePairs, List.filterMap_append, List.filterMap_cons, hEq]
  · intro ups u k r hE hk
    apply spec_determines
    simp only [specScopePairs, List.filterMap_append, List.filterMap_cons, hE,
      List.filterMap_nil]
    exact fsb_append_last [] (ups.filterMap eligibleRegistryPair) (k, r)
      (Or.inl hk)

/-- Witness for C8 at concrete instances of each hypothesis-bearing
conjunct: an unscoped upgrade is skipped; only the first of two registry
URLs matters; a third `@myorg` upgrade with a different URL is ignored. -/
theorem npm_c8_witness :
    (getRegistryNpmrcLines
        ([] ++ (⟨some (str "unscoped"), some [str "https://x/"]⟩ : Upgrade) :: []) =
      getRegistryNpmrcLines ([] ++ []) ∧
      getRegistryYarnrcScopes
          ([] ++ (⟨some (str "unscoped"), some [str "https://x/"]⟩ : Upgrade) :: []) =
        getRegistryYarnrcScopes ([] ++ [])) ∧
    (getRegistryNpmrcLines
        ([] ++ (⟨some (str "@s/a"), some [str "https://a/", str "https://b/"]⟩ : Upgrade) :: []) =
      getRegistryNpmrcLines ([] ++ (⟨some (str "@s/a"), some [str "https://a/"]⟩ : Upgrade) :: [])) ∧
    (getRegistryNpmrcLines
        (c8example ++ [⟨some (str "@myorg/c"), some [str "https://r2/"]⟩]) =
      getRegistryNpmrcLines c8example ∧
      getRegistryYarnrcScopes
          (c8example ++ [⟨some (str "@myorg/c"), some [str "https://r2/"]⟩]) =
        getRegistryYarnrcScopes c8example) :=
  ⟨npm_c8_scope_extraction.2.2.1 [] [] _ (by decide),
   (npm_c8_scope_extraction.2.2.2.1 [] [] (some (str "@s/a")) [str "https://b/"]
     (str "https://a/")).1,
   npm_c8_scope_extraction.2.2.2.2 c8example _ (str "@myorg") (str "https://r2/")
     (by decide) (by decide)⟩

end Npmrc
